import Mathlib

/-!
Shallow embedding of the PSARC decoder (src/index.ts) and verification of
its natural-language specification.  Buffers are modelled as `List Nat`
(byte values), the byte cursor as an explicit state record, thrown JS
string errors as `Except String`, and the external DEFLATE and AES
primitives as function parameters (the spec declares them out-of-scope
black boxes).
-/

namespace Psarc

/-- The byte-cursor state: the backing buffer and the current position
(class FileReader in the source). -/
structure FileReader where
  buffer : List Nat
  pos : Nat
deriving DecidableEq, Repr

/-- Big-endian accumulation of a byte list, matching the source's
running sum `number = number * 0 + byte[i] * 256 ^ (length - i - 1)`. -/
def beNumber (bytes : List Nat) : Nat :=
  bytes.foldl (fun acc b => acc * 256 + b) 0

/-- FileReader.readNumber: fails with the thrown string "eof" when fewer
than `n` bytes remain (the JS guard `index > buffer.length - length` over
integers), else reads `n` bytes big-endian and advances the cursor. -/
def FileReader.readNumber (st : FileReader) (n : Nat) : Except String (Nat × FileReader) :=
  if st.buffer.length < st.pos + n then .error "eof"
  else .ok (beNumber ((st.buffer.drop st.pos).take n), ⟨st.buffer, st.pos + n⟩)

/-- FileReader.readString: decodes the (clamped) slice
`buffer.slice(index, index + n)` with the external UTF-8 decoder `dec`
and always advances the cursor by the full `n`; never fails. -/
def FileReader.readString (dec : List Nat → String) (st : FileReader) (n : Nat) :
    String × FileReader :=
  (dec ((st.buffer.drop st.pos).take n), ⟨st.buffer, st.pos + n⟩)

/-- One block descriptor of the TOC (type Block in the source). -/
structure Block where
  name : String
  offset : Nat
  size : Nat
  fileOffset : Nat
deriving DecidableEq, Repr

/-- PSARC.addPadding: zero-pad to a multiple of 16 bytes
(`Buffer.concat([buffer], len + (16 - len % 16))` zero-fills the tail). -/
def addPadding (b : List Nat) : List Nat :=
  if b.length % 16 ≠ 0 then b ++ List.replicate (16 - b.length % 16) 0 else b

/-- PSARC.decryptTOC: pad the ciphertext, run the external AES-256-CFB
decryption `cipher`, and keep `res.slice(0, toc.length)` (JS slice clamps
to the available length). -/
def decryptTOC (cipher : List Nat → List Nat) (tocLength : Nat) (enc : List Nat) : List Nat :=
  (cipher (addPadding enc)).take tocLength

/-- The ciphertext region handed to decryptTOC:
`buffer.slice(index, index + toc.length - 32)`. -/
def tocCiphertext (buffer : List Nat) (pos tocLength : Nat) : List Nat :=
  (buffer.drop pos).take (tocLength - 32)

/-- The chunk-size-table scan loop of PSARC.readTOC: repeatedly
readShort (= readNumber 2), mapping a stored 0 to the fixed block size
65536, catching the thrown "eof" as normal termination and re-throwing
any other error. -/
def scanChunkSizes (st : FileReader) (acc : List Nat) : Except String (List Nat × FileReader) :=
  match h : st.readNumber 2 with
  | .error e => if e = "eof" then .ok (acc, st) else .error e
  | .ok (v, st') => scanChunkSizes st' (acc ++ [if v = 0 then 65536 else v])
termination_by st.buffer.length - st.pos
decreasing_by
  simp only [FileReader.readNumber] at h
  split at h
  · exact absurd h (by simp)
  · rename_i hle
    simp only [Except.ok.injEq, Prod.mk.injEq] at h
    cases h.2
    simp only
    omega

/-- Closed-form description of the chunk-size scan over the remaining
bytes: consume big-endian pairs, mapping an encoded 0 to 65536. -/
def chunkSizeList : List Nat → List Nat
  | b0 :: b1 :: rest =>
      (if b0 * 256 + b1 = 0 then 65536 else b0 * 256 + b1) :: chunkSizeList rest
  | _ => []

/-- The reconstruction loop of PSARC.readBlock, iterating over the
chunk-size table from the descriptor's starting chunk.  `unzip` is the
external DEFLATE primitive: `some` on success, `none` when the chunk is
stored literally (the caught unzipSync failure). -/
def readBlockLoop (archive : List Nat) (unzip : List Nat → Option (List Nat)) (size : Nat) :
    List Nat → Nat → List Nat → Except String (List Nat)
  | [], _, buf => .ok buf
  | bs :: rest, off, buf =>
    let seg := (archive.drop off).take bs
    let chunk := match unzip seg with
      | some u => u
      | none => seg
    let buf' := buf ++ chunk
    if buf'.length = size then .ok buf'
    else if size < buf'.length then .error ""
    else readBlockLoop archive unzip size rest (off + bs) buf'

/-- PSARC.readBlock: reassemble a logical file from its descriptor.  The
only thrown error is the empty string `throw ''` (size overflow). -/
def readBlock (archive : List Nat) (blockSizes : List Nat)
    (unzip : List Nat → Option (List Nat)) (b : Block) : Except String (List Nat) :=
  readBlockLoop archive unzip b.size (blockSizes.drop b.offset) b.fileOffset []

/-- The sequence of decompressed-or-literal chunks the readBlock loop
appends, one per chunk-size entry, advancing the physical offset just as
the loop does. -/
def decodedChunks (archive : List Nat) (unzip : List Nat → Option (List Nat)) :
    List Nat → Nat → List (List Nat)
  | [], _ => []
  | bs :: rest, off =>
    (match unzip ((archive.drop off).take bs) with
     | some u => u
     | none => (archive.drop off).take bs) :: decodedChunks archive unzip rest (off + bs)

/-- The chunk sequence a descriptor sees: the decoded chunks of the
chunk-size table from `b.offset` on, starting at `b.fileOffset`. -/
def blockChunks (archive blockSizes : List Nat) (unzip : List Nat → Option (List Nat))
    (b : Block) : List (List Nat) :=
  decodedChunks archive unzip (blockSizes.drop b.offset) b.fileOffset

/-- Proof device: the accumulation control of the readBlock loop over an
already-decoded chunk sequence — append a chunk, succeed on exact size,
throw "" on overshoot, and return the partial buffer when the chunks run
out. -/
def accumulateChunks (size : Nat) : List (List Nat) → List Nat → Except String (List Nat)
  | [], buf => .ok buf
  | c :: rest, buf =>
    if (buf ++ c).length = size then .ok (buf ++ c)
    else if size < (buf ++ c).length then .error ""
    else accumulateChunks size rest (buf ++ c)

/-- A JS line terminator, the characters not matched by `.` in a regex. -/
def lineTerm (c : Char) : Bool :=
  c == '\n' || c == '\r' || c == '\u2028' || c == '\u2029'

/-- Matcher for a JS regex of the shape `^pre.*.suf$` (the source's two
patterns both have an unescaped dot before the extension): the string is
`pre`, then any run of non-line-terminators of length at least 1, then
`suf`. -/
def dotStarDotMatch (pre suf s : List Char) : Bool :=
  pre.isPrefixOf s && suf.isSuffixOf s &&
    decide (pre.length + suf.length + 1 ≤ s.length) &&
    ((s.drop pre.length).take (s.length - pre.length - suf.length)).all (fun c => !lineTerm c)

/-- The test `file.match(/^manifests\/.*.hsan$/)` as a Boolean. -/
def matchHsan (s : String) : Bool :=
  dotStarDotMatch "manifests/".toList "hsan".toList s.toList

/-- The test `file.match(/^manifests\/songs.*.json$/)` as a Boolean. -/
def matchSongs (s : String) : Bool :=
  dotStarDotMatch "manifests/songs".toList "json".toList s.toList

/-- JS Array.prototype.findIndex: index of the first match, or -1. -/
def findIndexJS (p : α → Bool) : List α → Int
  | [] => -1
  | x :: xs =>
    if p x then 0
    else if findIndexJS p xs = -1 then -1 else findIndexJS p xs + 1

/-- The descriptor index computed by PSARC.getManifest:
`files.findIndex(matchHsan) + 1`. -/
def getManifestIndex (files : List String) : Int :=
  findIndexJS matchHsan files + 1

/-- The descriptor index computed by PSARC.getFirstSongManifest:
`files.findIndex(matchSongs)` with no `+ 1`. -/
def getFirstSongManifestIndex (files : List String) : Int :=
  findIndexJS matchSongs files

/-- Worker for PSARC.getPathManifestIndexes, carrying the loop index. -/
def getPathManifestIndexesAux : List String → Nat → List Nat
  | [], _ => []
  | f :: rest, i =>
    (if matchSongs f then [i + 1] else []) ++ getPathManifestIndexesAux rest (i + 1)

/-- PSARC.getPathManifestIndexes: every listing position matching the
song-JSON pattern, shifted by one. -/
def getPathManifestIndexes (files : List String) : List Nat :=
  getPathManifestIndexesAux files 0

/-- A derived path-name record (type PathName in the source). -/
structure PathName where
  key : String
  name : String
  songKey : String
deriving DecidableEq, Repr

/-- The ArrangementProperties flags a song-manifest JSON carries. -/
structure ArrProps where
  represent : Int
  bonusArr : Int
  pathLead : Int
  pathRhythm : Int
  pathBass : Int
deriving DecidableEq, Repr

/-- The fields PSARC.getPathName reads from a parsed song-manifest JSON:
the first key of `Entries` and its `Attributes`. -/
structure SongManifest where
  entryKey : String
  arrangementName : String
  songKey : String
  props : ArrProps
deriving DecidableEq, Repr

/-- PSARC.getPathName: throws the string "vocals" for a vocals
arrangement, otherwise builds the display label by successive appends. -/
def getPathName (m : SongManifest) : Except String PathName :=
  if m.arrangementName = "Vocals" then .error "vocals"
  else
    let name := ""
    let name := if m.props.represent = 0 then
        (if m.props.bonusArr = 1 then name ++ "Bonus " else name ++ "Alternate ")
      else name
    let name := if m.props.pathLead = 1 then name ++ "Lead"
      else if m.props.pathRhythm = 1 then name ++ "Rhythm"
      else if m.props.pathBass = 1 then name ++ "Bass"
      else name
    .ok ⟨m.entryKey, name, m.songKey⟩

/-- The label rule as the specification words it: a bonus/alternate
prefix when `represent = 0`, then exactly one instrument word chosen by
priority Lead, Rhythm, Bass. -/
def labelStr (p : ArrProps) : String :=
  (if p.represent = 0 then (if p.bonusArr = 1 then "Bonus " else "Alternate ") else "") ++
  (if p.pathLead = 1 then "Lead"
   else if p.pathRhythm = 1 then "Rhythm"
   else if p.pathBass = 1 then "Bass"
   else "")

/-- The membership test used by the deduplication pass:
`x.songKey === songKey && x.name === pathName` on the current fields. -/
def pnMatch (sk nm : String) (x : PathName) : Bool :=
  x.songKey == sk && x.name == nm

/-- Size of the current (songKey, name) class:
`songPathNames.filter(x => x.name === pathName).length`. -/
def countPair (l : List PathName) (sk nm : String) : Nat :=
  (l.filter (pnMatch sk nm)).length

/-- Spreading a JS Set: keep the first occurrence of each element, in
insertion order (`[...new Set(xs)]`). -/
def dedupFirst : List String → List String
  | [] => []
  | x :: xs => x :: (dedupFirst xs).filter (fun y => y != x)

/-- The renaming inner loop `names[i].name += ` ${i + 1}``:
walk the list, appending the next counter value to each record currently
matching the (songKey, name) class, in encounter order. -/
def applyNumbers (sk nm : String) : List PathName → Nat → List PathName
  | [], _ => []
  | x :: xs, c =>
    if pnMatch sk nm x then
      { x with name := nm ++ " " ++ toString (c + 1) } :: applyNumbers sk nm xs (c + 1)
    else
      x :: applyNumbers sk nm xs c

/-- One iteration of the per-name loop of
PSARC.addDuplicatePathNameNumbers: skip classes of size at most one,
else number the class members. -/
def processName (sk : String) (l : List PathName) (nm : String) : List PathName :=
  if countPair l sk nm ≤ 1 then l else applyNumbers sk nm l 0

/-- The distinct names of the records of a songKey, in encounter order,
computed from the current state at songKey entry. -/
def songNames (l : List PathName) (sk : String) : List String :=
  dedupFirst ((l.filter (fun x => x.songKey == sk)).map (fun x => x.name))

/-- The per-songKey body of PSARC.addDuplicatePathNameNumbers. -/
def processSongKey (l : List PathName) (sk : String) : List PathName :=
  (songNames l sk).foldl (processName sk) l

/-- PSARC.addDuplicatePathNameNumbers: iterate the deduplication body
over the distinct songKeys of the original record list. -/
def addDuplicatePathNameNumbers (l : List PathName) : List PathName :=
  (dedupFirst (l.map (fun x => x.songKey))).foldl processSongKey l

/-- The specification's description of the deduplication pass, threading
the already-emitted prefix `seen`: a record whose (songKey, name) class
in the original list has more than one member gets its encounter rank
appended; a record with a unique name is left untouched. -/
def specRenameFrom (orig : List PathName) (seen : List PathName) :
    List PathName → List PathName
  | [] => []
  | x :: xs =>
    (if 1 < countPair orig x.songKey x.name then
      { x with name := x.name ++ " " ++ toString (countPair seen x.songKey x.name + 1) }
    else x) :: specRenameFrom orig (seen ++ [x]) xs

/-- The deduplication pass exactly as the specification words it, scoped
per songKey: append " 1", " 2", … in encounter order to names shared by
more than one record, leave unique names untouched. -/
def specRename (l : List PathName) : List PathName :=
  specRenameFrom l [] l

/-- The loop body of PSARC.getPathNames applied to the per-manifest
derivation outcomes: push successful records, swallow the thrown
"vocals" marker, re-throw anything else. -/
def getPathNamesLoop : List (Except String PathName) → Except String (List PathName)
  | [] => .ok []
  | .ok p :: rest =>
    match getPathNamesLoop rest with
    | .ok ps => .ok (p :: ps)
    | .error e => .error e
  | .error e :: rest =>
    if e = "vocals" then getPathNamesLoop rest else .error e

/-- PSARC.getPathNames over the derivation outcomes of the song
manifests: collect the records, then run the deduplication pass. -/
def getPathNames (results : List (Except String PathName)) : Except String (List PathName) :=
  match getPathNamesLoop results with
  | .ok ps => .ok (addDuplicatePathNameNumbers ps)
  | .error e => .error e

/-- One entry of the master manifest's Entries map: the optional
PathName attribute the merger may set, and the rest of the entry's data,
which the merger never touches. -/
structure ManifestEntry where
  pathNameAttr : Option String
  restData : String
deriving DecidableEq, Repr

/-- addPathsToManifest: for every entry key, if a PathName record with
that key exists (`pathNames.find(x => x.key === key)`), set the entry's
PathName attribute to its name; otherwise leave the entry alone. -/
def addPathsToManifest (entries : List (String × ManifestEntry)) (pathNames : List PathName) :
    List (String × ManifestEntry) :=
  entries.map (fun kv =>
    match pathNames.find? (fun x => x.key == kv.1) with
    | some p => (kv.1, { kv.2 with pathNameAttr := some p.name })
    | none => kv)

/-- A DEFLATE primitive that always reports failure, so every chunk is
taken literally; used for concrete instances. -/
def noUnzip : List Nat → Option (List Nat) := fun _ => none

/-- A trivial text decoder, used for concrete instances. -/
def constDec : List Nat → String := fun _ => ""

/-- Proof device for the deduplication pass: the record list after the
classes selected by `P` (as songKey–name pairs of the original list)
have been renamed, and no others; `seen` is the already-traversed
prefix, used for the encounter ranks. -/
def stagedRenameFrom (orig : List PathName) (P : String → String → Bool)
    (seen : List PathName) : List PathName → List PathName
  | [] => []
  | x :: xs =>
    (if P x.songKey x.name && decide (1 < countPair orig x.songKey x.name) then
      { x with name := x.name ++ " " ++ toString (countPair seen x.songKey x.name + 1) }
    else x) :: stagedRenameFrom orig P (seen ++ [x]) xs

/-- Extend a class predicate by one (songKey, name) class. -/
def updP (P : String → String → Bool) (sk nm : String) : String → String → Bool :=
  fun a b => if a == sk && b == nm then true else P a b

/-- The class predicate selecting every class of an already-processed
songKey. -/
def skP (done : List String) : String → String → Bool :=
  fun a _ => done.contains a

theorem readBlockLoop_result (archive : List Nat) (unzip : List Nat → Option (List Nat))
    (size : Nat) :
    ∀ (sizes : List Nat) (off : Nat) (buf : List Nat), buf.length ≤ size →
      (∃ out, readBlockLoop archive unzip size sizes off buf = .ok out ∧ out.length ≤ size) ∨
      readBlockLoop archive unzip size sizes off buf = .error "" := by
  intro sizes
  induction sizes with
  | nil => exact fun off buf h => .inl ⟨buf, rfl, h⟩
  | cons bs rest ih =>
    intro off buf h
    simp only [readBlockLoop]
    split
    · next heq => exact .inl ⟨_, rfl, Nat.le_of_eq heq⟩
    · split
      · exact .inr rfl
      · next hne hnlt => exact ih (off + bs) _ (by omega)

theorem readBlockLoop_eq_accumulate (archive : List Nat)
    (unzip : List Nat → Option (List Nat)) (size : Nat) :
    ∀ (sizes : List Nat) (off : Nat) (buf : List Nat),
      readBlockLoop archive unzip size sizes off buf =
        accumulateChunks size (decodedChunks archive unzip sizes off) buf := by
  intro sizes
  induction sizes with
  | nil => intro off buf; rfl
  | cons bs rest ih =>
    intro off buf
    simp only [readBlockLoop, decodedChunks, accumulateChunks]
    split_ifs with h1 h2
    · rfl
    · rfl
    · exact ih (off + bs) _

theorem accumulate_exhaust (size : Nat) :
    ∀ (cs : List (List Nat)) (buf : List Nat),
      (∀ j, j < cs.length → (buf ++ (cs.take (j + 1)).flatten).length < size) →
      accumulateChunks size cs buf = .ok (buf ++ cs.flatten) := by
  intro cs
  induction cs with
  | nil => intro buf _; simp [accumulateChunks]
  | cons c rest ih =>
    intro buf h
    have h0 : (buf ++ c).length < size := by simpa using h 0 (by simp)
    simp only [accumulateChunks]
    rw [if_neg (by omega), if_neg (by omega)]
    have hrec := ih (buf ++ c) (fun j hj => by
      simpa [List.take_succ_cons, List.append_assoc] using
        h (j + 1) (by simp only [List.length_cons]; omega))
    rw [hrec]
    simp [List.append_assoc]

theorem accumulate_exact (size : Nat) :
    ∀ (cs : List (List Nat)) (buf : List Nat) (j : Nat), j < cs.length →
      (buf ++ (cs.take (j + 1)).flatten).length = size →
      (∀ i, i < j → (buf ++ (cs.take (i + 1)).flatten).length < size) →
      accumulateChunks size cs buf = .ok (buf ++ (cs.take (j + 1)).flatten) := by
  intro cs
  induction cs with
  | nil => intro buf j hj _ _; exact absurd hj (by simp)
  | cons c rest ih =>
    intro buf j hj heq hpri
    cases j with
    | zero =>
      have h1 : (buf ++ c).length = size := by simpa using heq
      simp only [accumulateChunks]
      rw [if_pos h1]
      simp
    | succ j' =>
      have h0 : (buf ++ c).length < size := by simpa using hpri 0 (by omega)
      simp only [accumulateChunks]
      rw [if_neg (by omega), if_neg (by omega)]
      have hrec := ih (buf ++ c) j'
        (by simp only [List.length_cons] at hj; omega)
        (by simpa [List.take_succ_cons, List.append_assoc] using heq)
        (fun i hi => by
          simpa [List.take_succ_cons, List.append_assoc] using hpri (i + 1) (by omega))
      rw [hrec]
      simp [List.append_assoc]

theorem accumulate_overflow (size : Nat) :
    ∀ (cs : List (List Nat)) (buf : List Nat) (j : Nat), j < cs.length →
      size < (buf ++ (cs.take (j + 1)).flatten).length →
      (∀ i, i < j → (buf ++ (cs.take (i + 1)).flatten).length < size) →
      accumulateChunks size cs buf = .error "" := by
  intro cs
  induction cs with
  | nil => intro buf j hj _ _; exact absurd hj (by simp)
  | cons c rest ih =>
    intro buf j hj hgt hpri
    cases j with
    | zero =>
      have h1 : size < (buf ++ c).length := by simpa using hgt
      simp only [accumulateChunks]
      rw [if_neg (by omega), if_pos h1]
    | succ j' =>
      have h0 : (buf ++ c).length < size := by simpa using hpri 0 (by omega)
      simp only [accumulateChunks]
      rw [if_neg (by omega), if_neg (by omega)]
      exact ih (buf ++ c) j'
        (by simp only [List.length_cons] at hj; omega)
        (by simpa [List.take_succ_cons, List.append_assoc] using hgt)
        (fun i hi => by
          simpa [List.take_succ_cons, List.append_assoc] using hpri (i + 1) (by omega))

theorem readBlock_eq_accumulate (archive blockSizes : List Nat)
    (unzip : List Nat → Option (List Nat)) (b : Block) :
    readBlock archive blockSizes unzip b =
      accumulateChunks b.size (blockChunks archive blockSizes unzip b) [] :=
  readBlockLoop_eq_accumulate archive unzip b.size (blockSizes.drop b.offset) b.fileOffset []

/-- Claim C1 (amended): with the decoded chunk sequence of the
descriptor written out, readBlock (i) never returns more than
descriptor.size bytes, and the only error it throws is the empty string
(the BlockSizeOverflow condition); (ii) when every accumulated prefix
stays below descriptor.size — the chunk-size table is exhausted first —
it returns the whole (shorter) concatenation successfully, with no
TruncatedBlock error; (iii) when the first prefix to reach
descriptor.size hits it exactly, it returns that prefix, of length
exactly descriptor.size; (iv) when the first such prefix overshoots
descriptor.size, it fails with the thrown empty string; and (v) a
successful result shorter than descriptor.size can only be the whole
concatenation, i.e. occurs only on table exhaustion. -/
theorem c1_readBlock_length (archive blockSizes : List Nat)
    (unzip : List Nat → Option (List Nat)) (b : Block) :
    ((∃ out, readBlock archive blockSizes unzip b = .ok out ∧ out.length ≤ b.size) ∨
      readBlock archive blockSizes unzip b = .error "") ∧
    ((∀ j, j < (blockChunks archive blockSizes unzip b).length →
        (((blockChunks archive blockSizes unzip b).take (j + 1)).flatten).length < b.size) →
      readBlock archive blockSizes unzip b =
        .ok (blockChunks archive blockSizes unzip b).flatten) ∧
    (∀ j, j < (blockChunks archive blockSizes unzip b).length →
      (((blockChunks archive blockSizes unzip b).take (j + 1)).flatten).length = b.size →
      (∀ i, i < j →
        (((blockChunks archive blockSizes unzip b).take (i + 1)).flatten).length < b.size) →
      readBlock archive blockSizes unzip b =
        .ok ((blockChunks archive blockSizes unzip b).take (j + 1)).flatten) ∧
    (∀ j, j < (blockChunks archive blockSizes unzip b).length →
      b.size < (((blockChunks archive blockSizes unzip b).take (j + 1)).flatten).length →
      (∀ i, i < j →
        (((blockChunks archive blockSizes unzip b).take (i + 1)).flatten).length < b.size) →
      readBlock archive blockSizes unzip b = .error "") ∧
    (∀ out, readBlock archive blockSizes unzip b = .ok out → out.length < b.size →
      out = (blockChunks archive blockSizes unzip b).flatten) := by
  have hR := readBlock_eq_accumulate archive blockSizes unzip b
  refine ⟨readBlockLoop_result archive unzip b.size (blockSizes.drop b.offset) b.fileOffset []
    (Nat.zero_le _), ?_, ?_, ?_, ?_⟩
  · intro hall
    rw [hR]
    have := accumulate_exhaust b.size (blockChunks archive blockSizes unzip b) []
      (fun j hj => by simpa using hall j hj)
    simpa using this
  · intro j hj heq hpri
    rw [hR]
    have := accumulate_exact b.size (blockChunks archive blockSizes unzip b) [] j hj
      (by simpa using heq) (fun i hi => by simpa using hpri i hi)
    simpa using this
  · intro j hj hgt hpri
    rw [hR]
    exact accumulate_overflow b.size (blockChunks archive blockSizes unzip b) [] j hj
      (by simpa using hgt) (fun i hi => by simpa using hpri i hi)
  · intro out hok hlt
    by_cases hex : ∀ j, j < (blockChunks archive blockSizes unzip b).length →
        (((blockChunks archive blockSizes unzip b).take (j + 1)).flatten).length < b.size
    · have hacc := accumulate_exhaust b.size (blockChunks archive blockSizes unzip b) []
        (fun j hj => by simpa using hex j hj)
      rw [hR, hacc] at hok
      have : ([] : List Nat) ++ (blockChunks archive blockSizes unzip b).flatten = out := by
        exact Except.ok.inj hok
      simpa using this.symm
    · push_neg at hex
      obtain ⟨j, hjl, hge⟩ := hex
      have hPex : ∃ j, j < (blockChunks archive blockSizes unzip b).length ∧
          b.size ≤ (((blockChunks archive blockSizes unzip b).take (j + 1)).flatten).length :=
        ⟨j, hjl, hge⟩
      have hP0 := Nat.find_spec hPex
      have hpri : ∀ i, i < Nat.find hPex →
          (((blockChunks archive blockSizes unzip b).take (i + 1)).flatten).length < b.size := by
        intro i hi
        have hmin := Nat.find_min hPex hi
        have hiL : i < (blockChunks archive blockSizes unzip b).length :=
          Nat.lt_trans hi hP0.1
        simp only [hiL, true_and, not_le] at hmin
        exact hmin
      rcases eq_or_lt_of_le hP0.2 with heq | hlt2
      · have hacc := accumulate_exact b.size (blockChunks archive blockSizes unzip b) []
          (Nat.find hPex) hP0.1 (by simpa using heq.symm)
          (fun i hi => by simpa using hpri i hi)
        rw [hR, hacc] at hok
        have hout : (((blockChunks archive blockSizes unzip b).take
            (Nat.find hPex + 1)).flatten) = out := by
          simpa using Except.ok.inj hok
        rw [← hout] at hlt
        omega
      · have hacc := accumulate_overflow b.size (blockChunks archive blockSizes unzip b) []
          (Nat.find hPex) hP0.1 (by simpa using hlt2)
          (fun i hi => by simpa using hpri i hi)
        rw [hR, hacc] at hok
        exact absurd hok (by simp)

/-- Claim C1, witness: chunks [1,2] and [3] reach a size-3 descriptor
exactly and yield its three bytes, while a size-0 descriptor overflows
on its first chunk and fails with the thrown empty string. -/
theorem c1_readBlock_length_witness :
    readBlock [1, 2, 3] [2, 1] noUnzip ⟨"", 0, 3, 0⟩ = .ok [1, 2, 3] ∧
    readBlock [9] [1] noUnzip ⟨"", 0, 0, 0⟩ = .error "" := by
  constructor
  · exact ((c1_readBlock_length [1, 2, 3] [2, 1] noUnzip ⟨"", 0, 3, 0⟩).2.2.1 1
      (by decide) (by decide)
      (by intro i hi; rw [Nat.lt_one_iff.mp hi]; decide)).trans
      (congrArg Except.ok (by decide))
  · exact (c1_readBlock_length [9] [1] noUnzip ⟨"", 0, 0, 0⟩).2.2.2.1 0
      (by decide) (by decide) (by intro i hi; exact absurd hi (by omega))

/-- Claim C1, counterexample to the TruncatedBlock clause: a descriptor
of size 1 whose chunk-size table is already exhausted makes readBlock
return the empty buffer successfully instead of failing. -/
theorem c1_truncated_block_cex :
    readBlock [] [] noUnzip ⟨"", 0, 1, 0⟩ = .ok [] ∧ ([] : List Nat).length ≠ 1 :=
  ⟨rfl, by decide⟩

/-- Claim C2: at the failing input, a listing whose only entry matches
the song-manifest pattern at position 0, getFirstSongManifest resolves
to descriptor 0 (the listing itself) while getPathManifestIndexes, per
the claim, resolves the same path to descriptor 1. -/
theorem c2_first_song_manifest_index_bug :
    getFirstSongManifestIndex ["manifests/songs_a.json"] = 0 ∧
    getPathManifestIndexes ["manifests/songs_a.json"] = [1] := by
  constructor <;> rfl

theorem findIndexJS_eq_neg_one {α : Type} (p : α → Bool) :
    ∀ l : List α, (∀ x ∈ l, p x = false) → findIndexJS p l = -1 := by
  intro l
  induction l with
  | nil => intro _; rfl
  | cons x xs ih =>
    intro h
    have hx : p x = false := h x (List.mem_cons_self x xs)
    have hxs := ih (fun y hy => h y (List.mem_cons_of_mem x hy))
    simp [findIndexJS, hx, hxs]

/-- Claim C3 (amended): when no listed path matches the .hsan pattern,
getManifest does not fail at all — findIndex yields -1, the +1 makes it
resolve descriptor 0, the listing itself, and output is produced; when
no path matches the song-JSON pattern, getFirstSongManifest computes
descriptor index -1 (an out-of-range access, a runtime type error), and
no MissingManifest error exists anywhere. -/
theorem c3_no_missing_manifest_error (files : List String) :
    ((∀ f ∈ files, matchHsan f = false) → getManifestIndex files = 0) ∧
    ((∀ f ∈ files, matchSongs f = false) → getFirstSongManifestIndex files = -1) := by
  constructor
  · intro h
    have := findIndexJS_eq_neg_one matchHsan files h
    simp [getManifestIndex, this]
  · intro h
    exact findIndexJS_eq_neg_one matchSongs files h

/-- Claim C3, witness: the concrete listing ["foo"] has no manifest
match of either kind. -/
theorem c3_no_missing_manifest_error_witness :
    getManifestIndex ["foo"] = 0 ∧ getFirstSongManifestIndex ["foo"] = -1 :=
  ⟨(c3_no_missing_manifest_error ["foo"]).1 (by decide),
   (c3_no_missing_manifest_error ["foo"]).2 (by decide)⟩

/-- Claim C3, counterexample: with no .hsan path listed, the manifest
lookup resolves descriptor 0 and reading that block produces output (the
listing bytes) instead of a fatal MissingManifest error. -/
theorem c3_missing_manifest_cex :
    getManifestIndex ["foo"] = 0 ∧ readBlock [65] [1] noUnzip ⟨"", 0, 1, 0⟩ = .ok [65] := by
  constructor <;> rfl

/-- Claim C4 (amended): the TOC decryption zero-pads the toc.length − 32
ciphertext bytes to a multiple of 16 and decrypts the padded buffer, but
the buffer handed to the TOC parser is the whole decrypted padded
buffer: its length is the padded ciphertext length, at most
toc.length − 17, so the `slice(0, toc.length)` truncation is vacuous and
the length is never exactly toc.length. -/
theorem c4_decrypt_toc_length (cipher : List Nat → List Nat) (tocLength : Nat)
    (enc : List Nat) (hcip : ∀ x, (cipher x).length = x.length)
    (henc : enc.length = tocLength - 32) (h32 : 32 ≤ tocLength) :
    addPadding enc = enc ++ List.replicate ((16 - enc.length % 16) % 16) 0 ∧
    decryptTOC cipher tocLength enc = cipher (addPadding enc) ∧
    (decryptTOC cipher tocLength enc).length = enc.length + (16 - enc.length % 16) % 16 ∧
    (decryptTOC cipher tocLength enc).length + 17 ≤ tocLength := by
  have hpad : addPadding enc = enc ++ List.replicate ((16 - enc.length % 16) % 16) 0 := by
    unfold addPadding
    split
    · next hr =>
      have : (16 - enc.length % 16) % 16 = 16 - enc.length % 16 := by omega
      rw [this]
    · next hr =>
      simp only [ne_eq, Decidable.not_not] at hr
      simp [hr]
  have hplen : (addPadding enc).length = enc.length + (16 - enc.length % 16) % 16 := by
    rw [hpad]; simp
  have hle : (cipher (addPadding enc)).length ≤ tocLength := by
    rw [hcip, hplen]; omega
  have hdec : decryptTOC cipher tocLength enc = cipher (addPadding enc) := by
    unfold decryptTOC
    exact List.take_of_length_le hle
  refine ⟨hpad, hdec, ?_, ?_⟩
  · rw [hdec, hcip, hplen]
  · rw [hdec, hcip, hplen]; omega

/-- Claim C4, witness: a 17-byte ciphertext for toc.length 49 is padded
to 32 bytes and the parser is handed all 32 bytes, well short of 49. -/
theorem c4_decrypt_toc_length_witness :
    (decryptTOC id 49 (List.replicate 17 3)).length = 32 ∧
    (decryptTOC id 49 (List.replicate 17 3)).length + 17 ≤ 49 := by
  have h := c4_decrypt_toc_length id 49 (List.replicate 17 3) (fun _ => rfl)
    (by simp) (by omega)
  refine ⟨?_, h.2.2.2⟩
  rw [h.2.2.1]
  simp

/-- Claim C4, counterexample to "length is exactly toc.length": with the
identity cipher, toc.length 48 and its 16 ciphertext bytes decrypt to a
16-byte buffer, not a 48-byte one. -/
theorem c4_decrypt_toc_cex :
    (decryptTOC id 48 (List.replicate 16 7)).length = 16 ∧ (16 : Nat) ≠ 48 :=
  ⟨rfl, by decide⟩

theorem chunkSizeList_of_short (l : List Nat) (h : l.length < 2) : chunkSizeList l = [] := by
  match l, h with
  | [], _ => rfl
  | [_], _ => rfl

theorem beNumber_pair (b0 b1 : Nat) : beNumber [b0, b1] = b0 * 256 + b1 := by
  simp [beNumber, List.foldl]

theorem scanChunkSizes_stop (st : FileReader) (acc : List Nat)
    (h : st.buffer.length < st.pos + 2) : scanChunkSizes st acc = .ok (acc, st) := by
  rw [scanChunkSizes]
  split
  · next e heq =>
    unfold FileReader.readNumber at heq
    rw [if_pos h] at heq
    injection heq with he
    subst he
    simp
  · next v st'' heq =>
    unfold FileReader.readNumber at heq
    rw [if_pos h] at heq
    exact absurd heq (by simp)

theorem scanChunkSizes_step (st : FileReader) (acc : List Nat)
    (h : st.pos + 2 ≤ st.buffer.length) :
    scanChunkSizes st acc =
      scanChunkSizes ⟨st.buffer, st.pos + 2⟩
        (acc ++ [if beNumber ((st.buffer.drop st.pos).take 2) = 0 then 65536
                 else beNumber ((st.buffer.drop st.pos).take 2)]) := by
  rw [scanChunkSizes]
  split
  · next e heq =>
    unfold FileReader.readNumber at heq
    rw [if_neg (by omega)] at heq
    exact absurd heq (by simp)
  · next v st'' heq =>
    unfold FileReader.readNumber at heq
    rw [if_neg (by omega)] at heq
    simp only [Except.ok.injEq, Prod.mk.injEq] at heq
    obtain ⟨hv, hst⟩ := heq
    subst hv
    subst hst
    rfl

theorem scanChunkSizes_ok (n : Nat) :
    ∀ (st : FileReader) (acc : List Nat), st.buffer.length - st.pos ≤ n →
      ∃ st', scanChunkSizes st acc = .ok (acc ++ chunkSizeList (st.buffer.drop st.pos), st') := by
  induction n with
  | zero =>
    intro st acc h
    rw [scanChunkSizes_stop st acc (by omega),
      chunkSizeList_of_short _ (by simp; omega)]
    exact ⟨st, by simp⟩
  | succ n ih =>
    intro st acc h
    by_cases hlt : st.buffer.length < st.pos + 2
    · rw [scanChunkSizes_stop st acc hlt, chunkSizeList_of_short _ (by simp; omega)]
      exact ⟨st, by simp⟩
    · have hge : st.pos + 2 ≤ st.buffer.length := by omega
      rw [scanChunkSizes_step st acc hge]
      obtain ⟨b0, b1, rest, hdrop⟩ : ∃ b0 b1 rest,
          st.buffer.drop st.pos = b0 :: b1 :: rest := by
        rcases hd : st.buffer.drop st.pos with _ | ⟨a, _ | ⟨b, r⟩⟩
        · have := congrArg List.length hd
          simp at this
          omega
        · have := congrArg List.length hd
          simp at this
          omega
        · exact ⟨a, b, r, rfl⟩
      have hrest : rest = st.buffer.drop (st.pos + 2) := by
        have h2 : (st.buffer.drop st.pos).drop 2 = st.buffer.drop (st.pos + 2) :=
          List.drop_drop 2 st.pos st.buffer
        rw [hdrop] at h2
        simpa using h2
      have htake : (st.buffer.drop st.pos).take 2 = [b0, b1] := by
        rw [hdrop]
        simp
      obtain ⟨st', hst'⟩ := ih ⟨st.buffer, st.pos + 2⟩
        (acc ++ [if beNumber ((st.buffer.drop st.pos).take 2) = 0 then 65536
                 else beNumber ((st.buffer.drop st.pos).take 2)]) (by simp; omega)
      refine ⟨st', ?_⟩
      rw [hst']
      simp only
      rw [htake, beNumber_pair, hdrop, chunkSizeList, ← hrest]
      simp [List.append_assoc]

theorem chunkSizeList_append_pair : ∀ bs : List Nat, bs.length % 2 = 0 →
    chunkSizeList (bs ++ [0, 0]) = chunkSizeList bs ++ [65536]
  | [], _ => rfl
  | [_], h => by simp at h
  | b0 :: b1 :: rest, h => by
    have ih := chunkSizeList_append_pair rest (by simp at h; omega)
    simp only [List.cons_append, chunkSizeList, List.append_eq]
    rw [ih]

/-- Claim C5: the chunk-size-table scan consumes uint16 big-endian pairs
from the remaining TOC bytes until fewer than two remain, recording a
stored value v as v and a stored 0 as 65536, always terminating
successfully (the thrown "eof" is absorbed as normal termination); in
particular a trailing encoded 0 on a 2-byte boundary yields a final
65536 entry. -/
theorem c5_chunk_size_scan :
    (∀ (st : FileReader) (acc : List Nat), ∃ st',
        scanChunkSizes st acc = .ok (acc ++ chunkSizeList (st.buffer.drop st.pos), st')) ∧
    (∀ bs : List Nat, bs.length % 2 = 0 →
        chunkSizeList (bs ++ [0, 0]) = chunkSizeList bs ++ [65536]) := by
  constructor
  · intro st acc
    exact scanChunkSizes_ok (st.buffer.length - st.pos) st acc (Nat.le_refl _)
  · exact chunkSizeList_append_pair

/-- Claim C5, witness: the scan of a 4-byte tail holding 0x0102 and then
an encoded 0 records 258 and then 65536. -/
theorem c5_chunk_size_scan_witness :
    chunkSizeList ([1, 2] ++ [0, 0]) = chunkSizeList [1, 2] ++ [65536] :=
  c5_chunk_size_scan.2 [1, 2] (by decide)

theorem getPathName_vocals (m : SongManifest) (h : m.arrangementName = "Vocals") :
    getPathName m = .error "vocals" := by
  simp [getPathName, h]

theorem getPathName_nonvocals (m : SongManifest) (h : m.arrangementName ≠ "Vocals") :
    getPathName m = .ok ⟨m.entryKey, labelStr m.props, m.songKey⟩ := by
  simp only [getPathName, if_neg h, labelStr]
  split_ifs <;> rfl

/-- Claim C6: for every non-vocals song manifest, the derived label is
the bonus/alternate prefix (exactly when represent = 0) followed by the
first set instrument flag in the priority order Lead, Rhythm, Bass. -/
theorem c6_path_name_label (m : SongManifest) (h : m.arrangementName ≠ "Vocals") :
    getPathName m = .ok ⟨m.entryKey, labelStr m.props, m.songKey⟩ :=
  getPathName_nonvocals m h

/-- Claim C6, witness: represent=0, bonusArr=1, pathLead=1 gives "Bonus
Lead"; represent=1, pathRhythm=1 gives "Rhythm". -/
theorem c6_path_name_label_witness :
    getPathName ⟨"k", "Lead", "S", ⟨0, 1, 1, 0, 0⟩⟩ =
      .ok ⟨"k", labelStr ⟨0, 1, 1, 0, 0⟩, "S"⟩ ∧
    labelStr ⟨0, 1, 1, 0, 0⟩ = "Bonus Lead" ∧ labelStr ⟨1, 0, 0, 1, 0⟩ = "Rhythm" :=
  ⟨c6_path_name_label ⟨"k", "Lead", "S", ⟨0, 1, 1, 0, 0⟩⟩ (by decide), rfl, rfl⟩

theorem getPathNamesLoop_map (ms : List SongManifest) :
    getPathNamesLoop (ms.map getPathName) =
      .ok ((ms.filter (fun m => m.arrangementName != "Vocals")).map
        (fun m => ⟨m.entryKey, labelStr m.props, m.songKey⟩)) := by
  induction ms with
  | nil => rfl
  | cons m rest ih =>
    by_cases h : m.arrangementName = "Vocals"
    · rw [List.map_cons, getPathName_vocals m h]
      simp [getPathNamesLoop, ih, List.filter_cons, h]
    · rw [List.map_cons, getPathName_nonvocals m h]
      simp [getPathNamesLoop, ih, List.filter_cons, h]

theorem getPathNamesLoop_error (e : String) (he : e ≠ "vocals") :
    ∀ (pre : List PathName) (rest : List (Except String PathName)),
      getPathNamesLoop (pre.map Except.ok ++ .error e :: rest) = .error e := by
  intro pre
  induction pre with
  | nil => intro rest; simp [getPathNamesLoop, he]
  | cons p ps ih => intro rest; simp [getPathNamesLoop, ih]

/-- Claim C7: vocals manifests derive the thrown "vocals" marker, the
collection loop swallows exactly that marker and keeps going — emitting
no record for the vocals manifest and finishing normally — while a
derivation outcome carrying any other error aborts the whole
computation with that error. -/
theorem c7_vocals_skip (ms : List SongManifest) (pre : List PathName) (e : String)
    (rest : List (Except String PathName)) :
    getPathNames (ms.map getPathName) =
      .ok (addDuplicatePathNameNumbers
        ((ms.filter (fun m => m.arrangementName != "Vocals")).map
          (fun m => ⟨m.entryKey, labelStr m.props, m.songKey⟩))) ∧
    (∀ m ∈ ms, m.arrangementName = "Vocals" → getPathName m = .error "vocals") ∧
    (e ≠ "vocals" → getPathNamesLoop (pre.map Except.ok ++ .error e :: rest) = .error e) := by
  refine ⟨?_, fun m _ hm => getPathName_vocals m hm, fun he => getPathNamesLoop_error e he pre rest⟩
  unfold getPathNames
  rw [getPathNamesLoop_map]

/-- Claim C7, witness: a vocals manifest followed by a rhythm manifest
yields only the rhythm record, and a non-vocals error aborts. -/
theorem c7_vocals_skip_witness :
    getPathNames (([⟨"k", "Vocals", "S", ⟨0, 0, 0, 0, 0⟩⟩,
        ⟨"k2", "Lead", "S", ⟨1, 0, 0, 1, 0⟩⟩] : List SongManifest).map getPathName) =
      .ok [⟨"k2", "Rhythm", "S"⟩] ∧
    getPathNamesLoop [.error "boom"] = .error "boom" :=
  ⟨((c7_vocals_skip [⟨"k", "Vocals", "S", ⟨0, 0, 0, 0, 0⟩⟩,
      ⟨"k2", "Lead", "S", ⟨1, 0, 0, 1, 0⟩⟩] [] "boom" []).1).trans
    (congrArg Except.ok (by decide)),
   (c7_vocals_skip [] [] "boom" []).2.2 (by decide)⟩

/-- Claim C9: for every position of the Entries list, the merge sets the
entry's PathName attribute to the name of the first PathName record
whose key matches, keeping every other field, and leaves an entry with
no matching record completely unmodified. -/
theorem c9_merge_path_names (entries : List (String × ManifestEntry))
    (pathNames : List PathName) (i : Nat) (k : String) (e : ManifestEntry)
    (hi : entries[i]? = some (k, e)) :
    ((∀ p ∈ pathNames, p.key ≠ k) →
      (addPathsToManifest entries pathNames)[i]? = some (k, e)) ∧
    (∀ p, pathNames.find? (fun x => x.key == k) = some p →
      (addPathsToManifest entries pathNames)[i]? =
        some (k, ⟨some p.name, e.restData⟩)) := by
  constructor
  · intro hnone
    have hfind : pathNames.find? (fun x => x.key == k) = none := by
      rw [List.find?_eq_none]
      intro p hp
      simpa using hnone p hp
    unfold addPathsToManifest
    rw [List.getElem?_map, hi]
    simp [hfind]
  · intro p hfind
    unfold addPathsToManifest
    rw [List.getElem?_map, hi]
    simp [hfind]

/-- Claim C9, witness: a matching key receives the record's name while
keeping the rest of the entry; verified at a one-entry manifest. -/
theorem c9_merge_path_names_witness :
    (addPathsToManifest [("k1", ⟨none, "rest1"⟩)] [⟨"k1", "Bass", "S"⟩])[0]? =
      some ("k1", ⟨some "Bass", "rest1"⟩) :=
  (c9_merge_path_names [("k1", ⟨none, "rest1"⟩)] [⟨"k1", "Bass", "S"⟩] 0 "k1"
    ⟨none, "rest1"⟩ rfl).2 ⟨"k1", "Bass", "S"⟩ rfl

/-- Claim C10: readString never fails on a short buffer — it hands the
decoder exactly the bytes remaining in the requested range, the empty
list when the cursor is at or past the end — and always advances the
cursor by the full count, past the end of the buffer if the range
overruns, whereas readNumber fails with the thrown "eof" whenever fewer
than n bytes remain. -/
theorem c10_read_string_total (dec : List Nat → String) (st : FileReader) (n : Nat) :
    (st.readString dec n).2.pos = st.pos + n ∧
    (st.readString dec n).2.buffer = st.buffer ∧
    (st.readString dec n).1 = dec ((st.buffer.drop st.pos).take n) ∧
    ((st.buffer.drop st.pos).take n).length = min n (st.buffer.length - st.pos) ∧
    (st.buffer.length ≤ st.pos → (st.readString dec n).1 = dec []) ∧
    (st.buffer.length < st.pos + n →
      st.readNumber n = .error "eof" ∧ st.buffer.length < (st.readString dec n).2.pos) := by
  refine ⟨rfl, rfl, rfl, ?_, ?_, ?_⟩
  · simp [Nat.min_comm]
  · intro h
    have : st.buffer.drop st.pos = [] := List.drop_eq_nil_of_le h
    simp [FileReader.readString, this]
  · intro h
    exact ⟨by unfold FileReader.readNumber; rw [if_pos h], h⟩

/-- Claim C10, witness: at a 2-byte buffer with the cursor at 1, a
4-byte read makes readNumber fail while readString advances to 5. -/
theorem c10_read_string_total_witness :
    FileReader.readNumber ⟨[1, 2], 1⟩ 4 = .error "eof" ∧
    (2 : Nat) < (FileReader.readString constDec ⟨[1, 2], 1⟩ 4).2.pos :=
  (c10_read_string_total constDec ⟨[1, 2], 1⟩ 4).2.2.2.2.2 (by decide)

theorem pnMatch_iff (sk nm : String) (x : PathName) :
    pnMatch sk nm x = true ↔ x.songKey = sk ∧ x.name = nm := by
  simp [pnMatch]

theorem pnMatch_renamed_false (sk nm : String) (x : PathName) (t : String)
    (h : x.songKey = sk → nm ≠ x.name ++ " " ++ t) :
    pnMatch sk nm { x with name := x.name ++ " " ++ t } = false := by
  by_cases hsk : x.songKey = sk
  · have hne : ¬(x.name ++ " " ++ t = nm) := fun hh => h hsk hh.symm
    simp [pnMatch, hsk, hne]
  · simp [pnMatch, hsk]

theorem countPair_append_singleton (s : List PathName) (x : PathName) (sk nm : String) :
    countPair (s ++ [x]) sk nm =
      countPair s sk nm + (if pnMatch sk nm x then 1 else 0) := by
  unfold countPair
  rw [List.filter_append]
  by_cases h : pnMatch sk nm x <;> simp [List.filter, h]

theorem contains_iff_mem (l : List String) (a : String) : l.contains a = true ↔ a ∈ l :=
  List.elem_iff

theorem contains_eq_false_iff (l : List String) (a : String) :
    l.contains a = false ↔ a ∉ l := by
  rw [← Bool.not_eq_true, contains_iff_mem]

theorem mem_dedupFirst (a : String) : ∀ l : List String, a ∈ dedupFirst l ↔ a ∈ l := by
  intro l
  induction l with
  | nil => simp [dedupFirst]
  | cons x xs ih =>
    simp only [dedupFirst, List.mem_cons, List.mem_filter, ih, bne_iff_ne]
    by_cases hax : a = x
    · simp [hax]
    · simp [hax]

theorem dedupFirst_nodup : ∀ l : List String, (dedupFirst l).Nodup := by
  intro l
  induction l with
  | nil => simp [dedupFirst]
  | cons x xs ih =>
    simp only [dedupFirst, List.nodup_cons]
    refine ⟨fun hmem => ?_, List.Nodup.filter _ ih⟩
    have := (List.mem_filter.mp hmem).2
    simp at this

theorem staged_no_renames (orig : List PathName) (P : String → String → Bool) :
    ∀ (suffix : List PathName) (seen : List PathName),
      (∀ x ∈ suffix, P x.songKey x.name = false) →
      stagedRenameFrom orig P seen suffix = suffix := by
  intro suffix
  induction suffix with
  | nil => intro seen _; rfl
  | cons x xs ih =>
    intro seen h
    have hx : P x.songKey x.name = false := h x (List.mem_cons_self x xs)
    simp only [stagedRenameFrom, hx, Bool.false_and, Bool.false_eq_true, if_false,
      List.cons.injEq, true_and]
    exact ih (seen ++ [x]) (fun y hy => h y (List.mem_cons_of_mem x hy))

theorem staged_congr (orig : List PathName) (P P' : String → String → Bool) :
    ∀ (suffix : List PathName) (seen : List PathName),
      (∀ x ∈ suffix,
        (P x.songKey x.name && decide (1 < countPair orig x.songKey x.name)) =
        (P' x.songKey x.name && decide (1 < countPair orig x.songKey x.name))) →
      stagedRenameFrom orig P seen suffix = stagedRenameFrom orig P' seen suffix := by
  intro suffix
  induction suffix with
  | nil => intro seen _; rfl
  | cons x xs ih =>
    intro seen h
    have hx := h x (List.mem_cons_self x xs)
    simp only [stagedRenameFrom, hx]
    rw [ih (seen ++ [x]) (fun y hy => h y (List.mem_cons_of_mem x hy))]

theorem specRenameFrom_eq_staged (orig : List PathName) :
    ∀ (pending : List PathName) (seen : List PathName),
      specRenameFrom orig seen pending =
        stagedRenameFrom orig (fun _ _ => true) seen pending := by
  intro pending
  induction pending with
  | nil => intro seen; rfl
  | cons x xs ih =>
    intro seen
    simp only [specRenameFrom, stagedRenameFrom, Bool.true_and, decide_eq_true_eq]
    rw [ih (seen ++ [x])]

theorem staged_filter (orig : List PathName) (P : String → String → Bool) (sk nm : String)
    (hP : P sk nm = false)
    (Hn : ∀ x ∈ orig, x.songKey = sk → ∀ k : Nat, nm ≠ x.name ++ " " ++ toString (k + 1)) :
    ∀ (suffix seen : List PathName), (∀ x ∈ suffix, x ∈ orig) →
      (stagedRenameFrom orig P seen suffix).filter (pnMatch sk nm) =
        suffix.filter (pnMatch sk nm) := by
  intro suffix
  induction suffix with
  | nil => intro seen _; rfl
  | cons x xs ih =>
    intro seen hsub
    have hxorig : x ∈ orig := hsub x (List.mem_cons_self x xs)
    have htail := ih (seen ++ [x]) (fun y hy => hsub y (List.mem_cons_of_mem x hy))
    cases hcond : (P x.songKey x.name && decide (1 < countPair orig x.songKey x.name)) with
    | true =>
      have hPx : P x.songKey x.name = true := by
        have hc := hcond
        rw [Bool.and_eq_true] at hc
        exact hc.1
      have hxm : pnMatch sk nm x = false := by
        cases hpm : pnMatch sk nm x with
        | false => rfl
        | true =>
          obtain ⟨h1, h2⟩ := (pnMatch_iff sk nm x).mp hpm
          rw [h1, h2, hP] at hPx
          exact absurd hPx (by simp)
      have hym : pnMatch sk nm
          { x with name := x.name ++ " " ++ toString (countPair seen x.songKey x.name + 1) } =
            false :=
        pnMatch_renamed_false sk nm x _ (fun hsk => Hn x hxorig hsk _)
      simp only [stagedRenameFrom, hcond, if_true, List.filter_cons, hym, hxm,
        Bool.false_eq_true, if_false]
      exact htail
    | false =>
      simp only [stagedRenameFrom, hcond, Bool.false_eq_true, if_false, List.filter_cons]
      cases hpm : pnMatch sk nm x with
      | true => simp only [if_true, htail]
      | false => simp only [Bool.false_eq_true, if_false, htail]

theorem applyNumbers_staged (orig : List PathName) (P : String → String → Bool)
    (sk nm : String) (hP : P sk nm = false)
    (Hn : ∀ x ∈ orig, x.songKey = sk → ∀ k : Nat, nm ≠ x.name ++ " " ++ toString (k + 1))
    (hcount : 1 < countPair orig sk nm) :
    ∀ (suffix seen : List PathName), (∀ x ∈ suffix, x ∈ orig) →
      applyNumbers sk nm (stagedRenameFrom orig P seen suffix) (countPair seen sk nm) =
        stagedRenameFrom orig (updP P sk nm) seen suffix := by
  intro suffix
  induction suffix with
  | nil => intro seen _; rfl
  | cons x xs ih =>
    intro seen hsub
    have hxorig : x ∈ orig := hsub x (List.mem_cons_self x xs)
    have htail := ih (seen ++ [x]) (fun y hy => hsub y (List.mem_cons_of_mem x hy))
    cases hxm : pnMatch sk nm x with
    | true =>
      obtain ⟨h1, h2⟩ := (pnMatch_iff sk nm x).mp hxm
      have hPx : P x.songKey x.name = false := by rw [h1, h2]; exact hP
      have hPx' : updP P sk nm x.songKey x.name = true := by
        unfold updP
        rw [h1, h2]
        simp
      have hcx : decide (1 < countPair orig x.songKey x.name) = true := by
        rw [h1, h2]
        simpa using hcount
      have hcnt : countPair (seen ++ [x]) sk nm = countPair seen sk nm + 1 := by
        rw [countPair_append_singleton, hxm]
        simp
      rw [hcnt] at htail
      simp only [stagedRenameFrom, hPx, Bool.false_and, Bool.false_eq_true, if_false,
        applyNumbers, hxm, if_true, hPx', hcx, Bool.and_self]
      rw [htail, h1, h2]
    | false =>
      have hcnt : countPair (seen ++ [x]) sk nm = countPair seen sk nm := by
        rw [countPair_append_singleton, hxm]
        simp
      rw [hcnt] at htail
      have hPeq : updP P sk nm x.songKey x.name = P x.songKey x.name := by
        unfold updP
        have hb : (x.songKey == sk && x.name == nm) = false := hxm
        rw [hb]
        simp
      cases hcond : (P x.songKey x.name && decide (1 < countPair orig x.songKey x.name)) with
      | true =>
        have hym : pnMatch sk nm
            { x with name := x.name ++ " " ++ toString (countPair seen x.songKey x.name + 1) } =
              false :=
          pnMatch_renamed_false sk nm x _ (fun hsk => Hn x hxorig hsk _)
        simp only [stagedRenameFrom, hcond, if_true, applyNumbers, hym,
          Bool.false_eq_true, if_false, hPeq]
        rw [htail]
      | false =>
        simp only [stagedRenameFrom, hcond, Bool.false_eq_true, if_false, applyNumbers,
          hxm, hPeq]
        rw [htail]

theorem countPair_staged (orig : List PathName) (P : String → String → Bool) (sk nm : String)
    (hP : P sk nm = false)
    (Hn : ∀ x ∈ orig, x.songKey = sk → ∀ k : Nat, nm ≠ x.name ++ " " ++ toString (k + 1)) :
    countPair (stagedRenameFrom orig P [] orig) sk nm = countPair orig sk nm := by
  unfold countPair
  rw [staged_filter orig P sk nm hP Hn orig [] (fun x hx => hx)]

theorem processName_staged (orig : List PathName) (P : String → String → Bool)
    (sk nm : String) (hP : P sk nm = false)
    (Hn : ∀ x ∈ orig, x.songKey = sk → ∀ k : Nat, nm ≠ x.name ++ " " ++ toString (k + 1)) :
    processName sk (stagedRenameFrom orig P [] orig) nm =
      stagedRenameFrom orig (updP P sk nm) [] orig := by
  unfold processName
  rw [countPair_staged orig P sk nm hP Hn]
  by_cases hc : countPair orig sk nm ≤ 1
  · rw [if_pos hc]
    apply staged_congr
    intro x hx
    by_cases hclass : x.songKey = sk ∧ x.name = nm
    · have hle : countPair orig x.songKey x.name ≤ 1 := by
        rw [hclass.1, hclass.2]
        exact hc
      have hdec : decide (1 < countPair orig x.songKey x.name) = false := by
        simp only [decide_eq_false_iff_not]
        omega
      rw [hdec]
      simp
    · have hpm : pnMatch sk nm x = false := by
        cases hpm' : pnMatch sk nm x with
        | false => rfl
        | true => exact absurd ((pnMatch_iff sk nm x).mp hpm') hclass
      have hPeq : updP P sk nm x.songKey x.name = P x.songKey x.name := by
        unfold updP
        have hb : (x.songKey == sk && x.name == nm) = false := hpm
        rw [hb]
        simp
      rw [hPeq]
  · rw [if_neg hc]
    exact applyNumbers_staged orig P sk nm hP Hn (by omega) orig [] (fun x hx => hx)

theorem staged_filter_songKey (orig : List PathName) (P : String → String → Bool)
    (sk : String) (hsk : ∀ b : String, P sk b = false) :
    ∀ (suffix seen : List PathName),
      (stagedRenameFrom orig P seen suffix).filter (fun x => x.songKey == sk) =
        suffix.filter (fun x => x.songKey == sk) := by
  intro suffix
  induction suffix with
  | nil => intro seen; rfl
  | cons x xs ih =>
    intro seen
    cases hcond : (P x.songKey x.name && decide (1 < countPair orig x.songKey x.name)) with
    | true =>
      have hxsk : (x.songKey == sk) = false := by
        cases hb : (x.songKey == sk) with
        | false => rfl
        | true =>
          have heq := beq_iff_eq.mp hb
          have hPx : P x.songKey x.name = true := by
            have hcc := hcond
            rw [Bool.and_eq_true] at hcc
            exact hcc.1
          rw [heq, hsk x.name] at hPx
          exact absurd hPx (by simp)
      simp only [stagedRenameFrom, hcond, if_true, List.filter_cons, hxsk,
        Bool.false_eq_true, if_false]
      exact ih (seen ++ [x])
    | false =>
      simp only [stagedRenameFrom, hcond, Bool.false_eq_true, if_false, List.filter_cons]
      cases hb : (x.songKey == sk) with
      | true =>
        simp only [if_true]
        rw [ih (seen ++ [x])]
      | false =>
        simp only [Bool.false_eq_true, if_false]
        exact ih (seen ++ [x])

theorem foldNames (orig : List PathName) (sk : String)
    (H : ∀ r1 ∈ orig, ∀ r2 ∈ orig, r1.songKey = r2.songKey →
      ∀ k : Nat, r2.name ≠ r1.name ++ " " ++ toString (k + 1)) :
    ∀ (nms : List String) (P : String → String → Bool),
      (∀ nm ∈ nms, P sk nm = false) → nms.Nodup →
      (∀ nm ∈ nms, ∃ r ∈ orig, r.songKey = sk ∧ r.name = nm) →
      nms.foldl (processName sk) (stagedRenameFrom orig P [] orig) =
        stagedRenameFrom orig (fun a b => (a == sk && nms.contains b) || P a b) [] orig := by
  intro nms
  induction nms with
  | nil =>
    intro P _ _ _
    simp only [List.foldl_nil]
    apply staged_congr
    intro x hx
    simp [List.contains_nil]
  | cons nm rest ih =>
    intro P hPf hnd hmem
    obtain ⟨r, hrmem, hrsk, hrnm⟩ := hmem nm (List.mem_cons_self nm rest)
    have Hn : ∀ x ∈ orig, x.songKey = sk → ∀ k : Nat,
        nm ≠ x.name ++ " " ++ toString (k + 1) := by
      intro x hx hxsk k
      have hh := H x hx r hrmem (hxsk.trans hrsk.symm) k
      rw [hrnm] at hh
      exact hh
    have hP : P sk nm = false := hPf nm (List.mem_cons_self nm rest)
    have hPf' : ∀ nm' ∈ rest, updP P sk nm sk nm' = false := by
      intro nm' h'
      have hne : nm' ≠ nm := fun hcontra => (List.nodup_cons.mp hnd).1 (hcontra ▸ h')
      have hb : (nm' == nm) = false := by simp [hne]
      unfold updP
      simp [hb, hPf nm' (List.mem_cons_of_mem nm h')]
    simp only [List.foldl_cons]
    rw [processName_staged orig P sk nm hP Hn]
    rw [ih (updP P sk nm) hPf' (List.nodup_cons.mp hnd).2
      (fun nm' h' => hmem nm' (List.mem_cons_of_mem nm h'))]
    apply staged_congr
    intro x hx
    unfold updP
    rw [List.contains_cons]
    cases ha : (x.songKey == sk) with
    | false => simp [ha]
    | true =>
      cases hb : (x.name == nm) with
      | true => simp [ha, hb]
      | false => simp [ha, hb]

theorem processSongKey_staged (orig : List PathName)
    (H : ∀ r1 ∈ orig, ∀ r2 ∈ orig, r1.songKey = r2.songKey →
      ∀ k : Nat, r2.name ≠ r1.name ++ " " ++ toString (k + 1))
    (done : List String) (sk : String) (hsk : done.contains sk = false) :
    processSongKey (stagedRenameFrom orig (skP done) [] orig) sk =
      stagedRenameFrom orig (skP (done ++ [sk])) [] orig := by
  unfold processSongKey
  have hnames : songNames (stagedRenameFrom orig (skP done) [] orig) sk =
      songNames orig sk := by
    unfold songNames
    rw [staged_filter_songKey orig (skP done) sk (fun b => hsk) orig []]
  rw [hnames]
  have hmem : ∀ nm ∈ songNames orig sk, ∃ r ∈ orig, r.songKey = sk ∧ r.name = nm := by
    intro nm hnm
    unfold songNames at hnm
    rw [mem_dedupFirst] at hnm
    obtain ⟨r, hr, hrnm⟩ := List.mem_map.mp hnm
    have hrr := List.mem_filter.mp hr
    exact ⟨r, hrr.1, beq_iff_eq.mp hrr.2, hrnm⟩
  rw [foldNames orig sk H (songNames orig sk) (skP done) (fun nm _ => hsk)
    (dedupFirst_nodup _) hmem]
  apply staged_congr
  intro x hx
  cases ha : (x.songKey == sk) with
  | true =>
    have haeq : x.songKey = sk := beq_iff_eq.mp ha
    have hbmem : x.name ∈ songNames orig sk := by
      unfold songNames
      rw [mem_dedupFirst]
      exact List.mem_map.mpr ⟨x, List.mem_filter.mpr ⟨hx, ha⟩, rfl⟩
    have hbcont : (songNames orig sk).contains x.name = true :=
      (contains_iff_mem _ _).mpr hbmem
    have hc2 : (done ++ [sk]).contains x.songKey = true :=
      (contains_iff_mem _ _).mpr (by
        rw [haeq]
        exact List.mem_append.mpr (.inr (List.mem_cons_self sk [])))
    simp [skP, ha, hbmem, haeq]
  | false =>
    have hane : x.songKey ≠ sk := by
      intro heq
      rw [heq] at ha
      simp at ha
    have hc2 : (done ++ [sk]).contains x.songKey = done.contains x.songKey := by
      by_cases hmm : x.songKey ∈ done
      · rw [(contains_iff_mem _ _).mpr (List.mem_append.mpr (.inl hmm)),
          (contains_iff_mem _ _).mpr hmm]
      · have h1 : (done ++ [sk]).contains x.songKey = false :=
          (contains_eq_false_iff _ _).mpr (by
            intro hin
            rcases List.mem_append.mp hin with h | h
            · exact hmm h
            · exact hane (by simpa using h))
        have h2 : done.contains x.songKey = false := (contains_eq_false_iff _ _).mpr hmm
        rw [h1, h2]
    simp [skP, ha, hane]

theorem foldSongKeys (orig : List PathName)
    (H : ∀ r1 ∈ orig, ∀ r2 ∈ orig, r1.songKey = r2.songKey →
      ∀ k : Nat, r2.name ≠ r1.name ++ " " ++ toString (k + 1)) :
    ∀ (sks : List String) (done : List String),
      (∀ sk ∈ sks, done.contains sk = false) → sks.Nodup →
      sks.foldl processSongKey (stagedRenameFrom orig (skP done) [] orig) =
        stagedRenameFrom orig (skP (done ++ sks)) [] orig := by
  intro sks
  induction sks with
  | nil =>
    intro done _ _
    simp
  | cons sk rest ih =>
    intro done hcont hnd
    have hc : ∀ sk' ∈ rest, (done ++ [sk]).contains sk' = false := by
      intro sk' h'
      apply (contains_eq_false_iff _ _).mpr
      intro hin
      rcases List.mem_append.mp hin with h | h
      · exact (contains_eq_false_iff done sk').mp
          (hcont sk' (List.mem_cons_of_mem sk h')) h
      · have hss : sk' = sk := by simpa using h
        exact (List.nodup_cons.mp hnd).1 (hss ▸ h')
    simp only [List.foldl_cons]
    rw [processSongKey_staged orig H done sk (hcont sk (List.mem_cons_self sk rest))]
    rw [ih (done ++ [sk]) hc (List.nodup_cons.mp hnd).2]
    rw [List.append_assoc]
    simp

/-- Claim C8 (amended): the deduplication pass renames, per songKey, the
records of every name class with more than one member by appending
" 1", " 2", … in encounter order and leaves unique names untouched —
provided no name within a songKey is some other record's name with a
space-and-number suffix appended; without that proviso a freshly
suffixed name can collide with an original name and trigger a cascading
second rename. -/
theorem c8_dedup_amended (l : List PathName)
    (H : ∀ r1 ∈ l, ∀ r2 ∈ l, r1.songKey = r2.songKey →
      ∀ k : Nat, r2.name ≠ r1.name ++ " " ++ toString (k + 1)) :
    addDuplicatePathNameNumbers l = specRename l := by
  unfold addDuplicatePathNameNumbers
  have hstart : stagedRenameFrom l (skP []) [] l = l :=
    staged_no_renames l (skP []) l [] (fun x _ => rfl)
  have hfold := foldSongKeys l H (dedupFirst (l.map (fun x => x.songKey))) []
    (fun sk _ => rfl) (dedupFirst_nodup _)
  rw [hstart] at hfold
  rw [hfold, specRename, specRenameFrom_eq_staged]
  apply staged_congr
  intro x hx
  have hmem : x.songKey ∈ dedupFirst (l.map (fun x => x.songKey)) := by
    rw [mem_dedupFirst]
    exact List.mem_map.mpr ⟨x, hx, rfl⟩
  have hcont : (([] : List String) ++ dedupFirst (l.map (fun x => x.songKey))).contains
      x.songKey = true := by
    rw [List.nil_append]
    exact (contains_iff_mem _ _).mpr hmem
  simp [skP, hmem]

/-- Claim C8, counterexample: in ["Lead", "Lead", "Lead 1"] under one
songKey the third record's name "Lead 1" is unique, yet the pass renames
it (to "Lead 1 2") because the first record was just renamed to
"Lead 1", colliding with it. -/
theorem c8_dedup_cex :
    addDuplicatePathNameNumbers
        [⟨"k1", "Lead", "S"⟩, ⟨"k2", "Lead", "S"⟩, ⟨"k3", "Lead 1", "S"⟩] =
      [⟨"k1", "Lead 1 1", "S"⟩, ⟨"k2", "Lead 2", "S"⟩, ⟨"k3", "Lead 1 2", "S"⟩] ∧
    ("Lead 1 2" : String) ≠ "Lead 1" := by
  constructor
  · decide
  · decide

/-- Claim C8, witness: three "Lead" records and a unique "Bass" record
of one song satisfy the proviso and are renamed exactly as the claim
describes. -/
theorem c8_dedup_amended_witness :
    addDuplicatePathNameNumbers [⟨"k1", "Lead", "SONG1"⟩, ⟨"k2", "Lead", "SONG1"⟩,
        ⟨"k3", "Lead", "SONG1"⟩, ⟨"k4", "Bass", "SONG1"⟩] =
      specRename [⟨"k1", "Lead", "SONG1"⟩, ⟨"k2", "Lead", "SONG1"⟩,
        ⟨"k3", "Lead", "SONG1"⟩, ⟨"k4", "Bass", "SONG1"⟩] ∧
    specRename [⟨"k1", "Lead", "SONG1"⟩, ⟨"k2", "Lead", "SONG1"⟩,
        ⟨"k3", "Lead", "SONG1"⟩, ⟨"k4", "Bass", "SONG1"⟩] =
      [⟨"k1", "Lead 1", "SONG1"⟩, ⟨"k2", "Lead 2", "SONG1"⟩,
        ⟨"k3", "Lead 3", "SONG1"⟩, ⟨"k4", "Bass", "SONG1"⟩] := by
  constructor
  · apply c8_dedup_amended
    intro r1 h1 r2 h2 _ k hcontra
    have h1n : r1.name.length = 4 := by
      simp only [List.mem_cons, List.not_mem_nil, or_false] at h1
      rcases h1 with h | h | h | h <;> subst h <;> decide
    have h2n : r2.name.length = 4 := by
      simp only [List.mem_cons, List.not_mem_nil, or_false] at h2
      rcases h2 with h | h | h | h <;> subst h <;> decide
    have hlen := congrArg String.length hcontra
    rw [String.length_append, String.length_append] at hlen
    have hs : (" " : String).length = 1 := rfl
    omega
  · decide

end Psarc
